import Mathlib

/-!
Formal model of the core of the vlock terminal locker: the generic topological
sorter (src/tsort.h), the child-process supervisor (src/process.c) and the
signal/VT-guard routines (signals.c).

The C++ sorter works on a `std::list` of nodes and a `std::list` of heap
allocated `Edge` objects.  Each list cell holds a distinct allocation, so
`edges.remove(*it)` removes exactly the cell the iterator is at, and the walk
continues with the cells after it; the model represents the edge list as a
`List (α × α)` and mirrors that behaviour.  The process and signal routines
interact with the kernel; those interactions are modelled by passing in the
observable kernel answers (waitpid results, pipe results, fork result) and
returning the observable actions (signals sent, dup2 calls issued, descriptor
bookkeeping, final signal dispositions).
-/

set_option maxHeartbeats 1000000
set_option linter.unusedSectionVars false

section TSortDefs

variable {α : Type} [DecidableEq α]

/-- Model of `is_zero(node, edges)` from src/tsort.h: walk the edge list and
return false at the first edge whose successor equals `node`; true when the
walk completes. -/
def is_zero (node : α) (edges : List (α × α)) : Bool :=
  match edges with
  | [] => true
  | e :: rest => if e.2 = node then false else is_zero node rest

/-- Model of `get_zeros(nodes, edges)` from src/tsort.h: start from a copy of
`nodes` and, for each edge, remove every occurrence of its successor
(`std::list::remove` erases all equal elements).  The source's early exit once
the working list is empty does not change the result, because removal from an
empty list yields an empty list. -/
def get_zeros (nodes : List α) (edges : List (α × α)) : List α :=
  match edges with
  | [] => nodes
  | e :: rest => get_zeros (nodes.filter (fun n => !(n = e.2))) rest

/-- Model of the inner `for` loop of `tsort`: walk the edge list; an edge whose
predecessor is not `zero` is kept, an edge whose predecessor is `zero` is
removed, and its successor is appended to the pending-zeros list exactly when
`is_zero` holds on the edge list as it stands after the removal, which is
`kept ++ rest`. -/
def scan_edges (zero : α) (kept : List (α × α)) (rest : List (α × α))
    (zeros : List α) : List (α × α) × List α :=
  match rest with
  | [] => (kept, zeros)
  | e :: rest =>
    if e.1 = zero then
      scan_edges zero kept rest
        (if is_zero e.2 (kept ++ rest) then zeros ++ [e.2] else zeros)
    else
      scan_edges zero (kept ++ [e]) rest zeros

/-- Model of the outer `while (!zeros->empty())` loop of `tsort`, carrying the
accumulated `sorted_nodes` list.  Each iteration pops the front zero, appends
it to the output and runs the inner edge scan. -/
def tsort_loop (zeros : List α) (edges : List (α × α)) (sorted : List α) :
    List α × List (α × α) :=
  match zeros with
  | [] => (sorted, edges)
  | zero :: zrest =>
    tsort_loop (scan_edges zero [] edges zrest).2 (scan_edges zero [] edges zrest).1
      (sorted ++ [zero])
termination_by zeros.length + edges.length
decreasing_by
  have key : ∀ (rest : List (α × α)) (kept : List (α × α)) (zs : List α),
      (scan_edges zero kept rest zs).1.length + (scan_edges zero kept rest zs).2.length
        ≤ kept.length + rest.length + zs.length := by
    intro rest
    induction rest with
    | nil => intro kept zs; simp [scan_edges]
    | cons e rest ih =>
      intro kept zs
      simp only [scan_edges]
      split
      · split
        · have := ih kept (zs ++ [e.2])
          simp at this ⊢
          omega
        · have := ih kept zs
          simp at this ⊢
          omega
      · have := ih (kept ++ [e]) zs
        simp at this ⊢
        omega
  have := key edges [] zrest
  simp at this ⊢
  omega

/-- Model of `tsort(nodes, edges)` from src/tsort.h: seed the zeros list with
`get_zeros`, run the loop, and let `result = edges.empty()`.  On success the
node list is assigned the sorted order; on failure it is left alone.  The
returned edge list is whatever the loop did not remove. -/
def tsort (nodes : List α) (edges : List (α × α)) : Bool × List α × List (α × α) :=
  let p := tsort_loop (get_zeros nodes edges) edges []
  if p.2.isEmpty then (true, p.1, p.2) else (false, nodes, p.2)

/-- One directed step of the dependency relation: `(a, b)` is an edge of `E`. -/
def stepRel (E : List (α × α)) (a b : α) : Prop := (a, b) ∈ E

instance (E : List (α × α)) (a b : α) : Decidable (stepRel E a b) :=
  inferInstanceAs (Decidable ((a, b) ∈ E))

end TSortDefs

section ProcessDefs

/-- Observable actions of `ensure_death` (src/process.c). -/
inductive PAct where
  | reap_nohang
  | sig_term
  | wait_timeout (sec usec : Int)
  | sig_kill
  | sig_cont
  | wait_block
deriving DecidableEq

/-- Model of `ensure_death(pid)` from src/process.c, parametrised by the kernel
answers it observes: `firstReap` is the return of the initial
`waitpid(pid, &status, WNOHANG)` (-1 error / not a child, 0 still running,
otherwise the reaped pid), and `graceReaped` is the result of
`wait_for_death(pid, 0, 500000L)`.  The value is the sequence of actions the
function performs. -/
def ensure_death (firstReap : Int) (graceReaped : Bool) : List PAct :=
  if firstReap = -1 then
    [PAct.reap_nohang]
  else if firstReap = 0 then
    if graceReaped then
      [PAct.reap_nohang, PAct.sig_term, PAct.wait_timeout 0 500000]
    else
      [PAct.reap_nohang, PAct.sig_term, PAct.wait_timeout 0 500000,
        PAct.sig_kill, PAct.sig_cont, PAct.wait_block]
  else
    [PAct.reap_nohang]

/-- An interval timer value: `it_value` and `it_interval`, each (sec, usec). -/
structure TimerVal where
  it_value : Int × Int
  it_interval : Int × Int
deriving DecidableEq

/-- The process state `wait_for_death` touches: the SIGALRM disposition and the
ITIMER_REAL interval timer.  `H` is the type of signal dispositions. -/
structure AlarmState (H : Type) where
  alarm_handler : H
  itimer_real : TimerVal

/-- `sigaction(SIGALRM, &act, &oldact)`: install a new disposition, return the
new state together with the previous disposition. -/
def sigaction_swap {H : Type} (s : AlarmState H) (h : H) : AlarmState H × H :=
  (⟨h, s.itimer_real⟩, s.alarm_handler)

/-- `setitimer(ITIMER_REAL, &timer, &otimer)`: install a new timer, return the
new state together with the previous timer. -/
def setitimer_swap {H : Type} (s : AlarmState H) (t : TimerVal) : AlarmState H × TimerVal :=
  (⟨s.alarm_handler, t⟩, s.itimer_real)

/-- Model of `wait_for_death(pid, sec, usec)` from src/process.c.
`ignoreHandler` is the disposition installed for SIGALRM (the no-op
`ignore_sigalarm`), `s` is the state on entry and `waitRes` the return value of
the blocking `waitpid(pid, &status, 0)` (the reaped pid, or -1 when the timer
signal interrupted the wait).  Mirrors the source order: save/install the
SIGALRM action, save/install the one-shot timer, wait, restore the timer,
restore the action, and return whether the wait reaped `pid`. -/
def wait_for_death {H : Type} (ignoreHandler : H) (pid : Int) (sec usec : Int)
    (s : AlarmState H) (waitRes : Int) : Bool × AlarmState H :=
  let r1 := sigaction_swap s ignoreHandler
  let r2 := setitimer_swap r1.1 ⟨(sec, usec), (0, 0)⟩
  let result := decide (waitRes = pid)
  let r3 := setitimer_swap r2.1 r2.2
  let r4 := sigaction_swap r3.1 r1.2
  (result, r4.1)

/-- Redirection sentinel from process.h.  The header itself is not part of the
sources at hand; modelled from the spec: the three per-stream redirection
modes "no-redirect", "redirect-to-null" and "pipe" are distinct sentinels,
kept apart from real (nonnegative) descriptor numbers. -/
def NO_REDIRECT : Int := -1

/-- Redirection sentinel from process.h; see `NO_REDIRECT`. -/
def REDIRECT_DEV_NULL : Int := -2

/-- Redirection sentinel from process.h; see `NO_REDIRECT`. -/
def REDIRECT_PIPE : Int := -3

/-- Standard input descriptor number. -/
def STDIN_FILENO : Int := 0

/-- Standard output descriptor number. -/
def STDOUT_FILENO : Int := 1

/-- Standard error descriptor number. -/
def STDERR_FILENO : Int := 2

/-- The `struct child_process` fields that `create_child` reads and writes:
the three per-stream redirection requests (overwritten with live descriptors
on success) and the child pid. -/
structure ChildDesc where
  stdin_fd : Int
  stdout_fd : Int
  stderr_fd : Int
  pid : Int
deriving DecidableEq

/-- Outcome of `create_child` as seen by the caller: a parent-side return
carrying the success flag, the updated descriptor and the multiset of pipe
descriptors opened by this call and still open at return; or the child branch
of the fork, which never returns to the caller's logic. -/
inductive CCOutcome where
  | ret (ok : Bool) (child : ChildDesc) (opened : List Int)
  | childBranch (child : ChildDesc)
deriving DecidableEq

/-- `close` both ends of a pipe (first element then second), guarded by the
same `== REDIRECT_PIPE` test the source's cleanup labels use. -/
def close_pipe_if (cond : Prop) [Decidable cond] (p : Int × Int) (opened : List Int) :
    List Int :=
  if cond then (opened.erase p.1).erase p.2 else opened

/-- The descriptors a `pipe()` oracle answer contributes. -/
def pipe_fds : Option (Int × Int) → List Int
  | none => []
  | some p => [p.1, p.2]

/-- Model of `create_child(child)` from src/process.c, parametrised by the
kernel answers: `p1`, `p2`, `p3` are the results of the (up to three) `pipe()`
calls for stdin/stdout/stderr (`none` = the call failed), and `forkRes` the
return of `fork()`.  The tracked list holds the pipe descriptors opened by
this call that are still open; a `pipe()` that is not requested is never
performed and its oracle answer is ignored.  The goto-chain of cleanup labels
(`fork_failed` → `stderr_pipe_failed` → `stdout_pipe_failed`) is mirrored by
the nested `close_pipe_if` applications. -/
def create_child (c : ChildDesc) (p1 p2 p3 : Option (Int × Int)) (forkRes : Int) :
    CCOutcome :=
  if c.stdin_fd = REDIRECT_PIPE ∧ p1 = none then
    CCOutcome.ret false c []
  else
    let sp := p1.getD (0, 0)
    let o1 := if c.stdin_fd = REDIRECT_PIPE then [sp.1, sp.2] else []
    if c.stdout_fd = REDIRECT_PIPE ∧ p2 = none then
      CCOutcome.ret false c (close_pipe_if (c.stdin_fd = REDIRECT_PIPE) sp o1)
    else
      let op := p2.getD (0, 0)
      let o2 := o1 ++ (if c.stdout_fd = REDIRECT_PIPE then [op.1, op.2] else [])
      if c.stderr_fd = REDIRECT_PIPE ∧ p3 = none then
        CCOutcome.ret false c
          (close_pipe_if (c.stdin_fd = REDIRECT_PIPE) sp
            (close_pipe_if (c.stdout_fd = REDIRECT_PIPE) op o2))
      else
        let ep := p3.getD (0, 0)
        let o3 := o2 ++ (if c.stderr_fd = REDIRECT_PIPE then [ep.1, ep.2] else [])
        if forkRes = 0 then
          CCOutcome.childBranch ⟨c.stdin_fd, c.stdout_fd, c.stderr_fd, 0⟩
        else if forkRes < 0 then
          CCOutcome.ret false ⟨c.stdin_fd, c.stdout_fd, c.stderr_fd, forkRes⟩
            (close_pipe_if (c.stdin_fd = REDIRECT_PIPE) sp
              (close_pipe_if (c.stdout_fd = REDIRECT_PIPE) op
                (close_pipe_if (c.stderr_fd = REDIRECT_PIPE) ep o3)))
        else
          CCOutcome.ret true
            ⟨if c.stdin_fd = REDIRECT_PIPE then sp.2 else c.stdin_fd,
             if c.stdout_fd = REDIRECT_PIPE then op.1 else c.stdout_fd,
             if c.stderr_fd = REDIRECT_PIPE then ep.1 else c.stderr_fd,
             forkRes⟩
            (let o4 := if c.stdin_fd = REDIRECT_PIPE then o3.erase sp.1 else o3
             let o5 := if c.stdout_fd = REDIRECT_PIPE then o4.erase op.2 else o4
             if c.stderr_fd = REDIRECT_PIPE then o5.erase ep.2 else o5)

/-- The `dup2` calls the child branch of `create_child` issues, in order, as
`(oldfd, newfd)` pairs exactly as they appear in the source: for each of the
three streams the source passes `STDIN_FILENO` as the first argument of
`dup2`.  `sp`, `op`, `ep` are the stdin/stdout/stderr pipe pairs and
`devnull` the descriptor `open_devnull()` returns. -/
def child_redirects (c : ChildDesc) (sp op ep : Int × Int) (devnull : Int) :
    List (Int × Int) :=
  (if c.stdin_fd = REDIRECT_PIPE then [(STDIN_FILENO, sp.1)]
   else if c.stdin_fd = REDIRECT_DEV_NULL then [(STDIN_FILENO, devnull)]
   else if c.stdin_fd ≠ NO_REDIRECT then [(STDIN_FILENO, c.stdin_fd)]
   else []) ++
  (if c.stdout_fd = REDIRECT_PIPE then [(STDIN_FILENO, op.2)]
   else if c.stdout_fd = REDIRECT_DEV_NULL then [(STDIN_FILENO, devnull)]
   else if c.stdout_fd ≠ NO_REDIRECT then [(STDIN_FILENO, c.stdout_fd)]
   else []) ++
  (if c.stderr_fd = REDIRECT_PIPE then [(STDIN_FILENO, ep.2)]
   else if c.stderr_fd = REDIRECT_DEV_NULL then [(STDIN_FILENO, devnull)]
   else if c.stderr_fd ≠ NO_REDIRECT then [(STDIN_FILENO, c.stderr_fd)]
   else [])

/-- Modelled from the spec: the intended child-side redirections, with each
stream redirected independently onto its own configured target — the pipe read
end onto stdin, the pipe write end onto stdout resp. stderr, `/dev/null` or an
explicit descriptor onto the stream's own descriptor.  Each pair is a
`dup2 (oldfd, newfd)` call duplicating the stream's own target onto the
stream. -/
def child_redirects_spec (c : ChildDesc) (sp op ep : Int × Int) (devnull : Int) :
    List (Int × Int) :=
  (if c.stdin_fd = REDIRECT_PIPE then [(sp.1, STDIN_FILENO)]
   else if c.stdin_fd = REDIRECT_DEV_NULL then [(devnull, STDIN_FILENO)]
   else if c.stdin_fd ≠ NO_REDIRECT then [(c.stdin_fd, STDIN_FILENO)]
   else []) ++
  (if c.stdout_fd = REDIRECT_PIPE then [(op.2, STDOUT_FILENO)]
   else if c.stdout_fd = REDIRECT_DEV_NULL then [(devnull, STDOUT_FILENO)]
   else if c.stdout_fd ≠ NO_REDIRECT then [(c.stdout_fd, STDOUT_FILENO)]
   else []) ++
  (if c.stderr_fd = REDIRECT_PIPE then [(ep.2, STDERR_FILENO)]
   else if c.stderr_fd = REDIRECT_DEV_NULL then [(devnull, STDERR_FILENO)]
   else if c.stderr_fd ≠ NO_REDIRECT then [(c.stderr_fd, STDERR_FILENO)]
   else [])

end ProcessDefs

section SignalDefs

/-- The `VT_RELDISP` ioctl request code from linux/vt.h. -/
def VT_RELDISP : Int := 0x5605

/-- The program state `release_vt` (signals.c) can see or touch: the console
descriptor `vfd`, the `o_lock_all` option flag, and the log of ioctl calls
issued so far, each recorded as (descriptor, request, argument). -/
structure VTState where
  vfd : Int
  o_lock_all : Bool
  ioctl_log : List (Int × Int × Int)
deriving DecidableEq

/-- Model of `release_vt(signo)` from signals.c: if `o_lock_all` is clear,
issue `ioctl(vfd, VT_RELDISP, 1)` (the kernel may switch); otherwise issue
`ioctl(vfd, VT_RELDISP, 0)` (the kernel may not switch). -/
def release_vt (s : VTState) : VTState :=
  if !s.o_lock_all then
    ⟨s.vfd, s.o_lock_all, s.ioctl_log ++ [(s.vfd, VT_RELDISP, 1)]⟩
  else
    ⟨s.vfd, s.o_lock_all, s.ioctl_log ++ [(s.vfd, VT_RELDISP, 0)]⟩

/-- The externally visible effect of `signal_die`: whether it restored the
terminal and whether it exited the process. -/
structure DieEffect where
  restored_terminal : Bool
  exited : Bool
deriving DecidableEq

/-- Model of `signal_die(signo)` from signals.c, parametrised by the return of
its `waitpid(-1, NULL, WNOHANG)` call (`-1` error / no children, `0` children
but none exited, otherwise the pid of whichever child was reaped).  The source
tests the raw return for C truthiness: any nonzero value restores the terminal
and exits. -/
def signal_die (reapRes : Int) : DieEffect :=
  if reapRes ≠ 0 then ⟨true, true⟩ else ⟨false, false⟩

/-- The signals mask_signals (signals.c) manipulates. -/
inductive VSig where
  | usr1
  | usr2
  | chld
  | tstp
  | ttin
  | ttou
  | hup
  | other (n : Nat)
deriving DecidableEq

/-- Signal dispositions installable by signals.c. -/
inductive VHandler where
  | h_dfl
  | release_vt
  | acquire_vt
  | signal_ignorer
  | signal_die
  | other (n : Nat)
deriving DecidableEq

/-- Process-wide signal state: the blocked-signal mask and the handler table. -/
structure SigCtx where
  mask : VSig → Bool
  handler : VSig → VHandler

/-- `sigdelset`: unblock `s` in mask `m`. -/
def sigdelset (m : VSig → Bool) (s : VSig) : VSig → Bool :=
  fun x => if x = s then false else m x

/-- `sigaddset`: block `s` in mask `m`. -/
def sigaddset (m : VSig → Bool) (s : VSig) : VSig → Bool :=
  fun x => if x = s then true else m x

/-- `sigaction(s, &sa, NULL)` with handler `v`: update the handler table. -/
def set_handler (h : VSig → VHandler) (s : VSig) (v : VHandler) :
    VSig → VHandler :=
  fun x => if x = s then v else h x

/-- Model of `mask_signals()` from signals.c: read the current mask, delete
SIGUSR1/SIGUSR2, add SIGTSTP/SIGTTIN/SIGTTOU/SIGHUP, delete SIGCHLD, install
the combined mask, then install `release_vt`/`acquire_vt` for the two switch
signals, `signal_ignorer` for the four terminal signals and `signal_die` for
SIGCHLD.  (The previous mask is also saved into a static for
`restore_signals`, which this model does not track.) -/
def mask_signals (c : SigCtx) : SigCtx :=
  let m1 := sigdelset c.mask VSig.usr1
  let m2 := sigdelset m1 VSig.usr2
  let m3 := sigaddset m2 VSig.tstp
  let m4 := sigaddset m3 VSig.ttin
  let m5 := sigaddset m4 VSig.ttou
  let m6 := sigaddset m5 VSig.hup
  let m7 := sigdelset m6 VSig.chld
  let h1 := set_handler c.handler VSig.usr1 VHandler.release_vt
  let h2 := set_handler h1 VSig.usr2 VHandler.acquire_vt
  let h3 := set_handler h2 VSig.tstp VHandler.signal_ignorer
  let h4 := set_handler h3 VSig.ttin VHandler.signal_ignorer
  let h5 := set_handler h4 VSig.ttou VHandler.signal_ignorer
  let h6 := set_handler h5 VSig.hup VHandler.signal_ignorer
  let h7 := set_handler h6 VSig.chld VHandler.signal_die
  ⟨m7, h7⟩

end SignalDefs

section InvariantDefs

variable {α : Type} [DecidableEq α]

/-- Invariant of the `tsort` loop used for the acyclic-success argument, stated
against the original node list `N` and edge list `E` of the call.  `zeros`,
`edges` and `sorted` are the current working lists. -/
structure LoopInv (N : List α) (E : List (α × α)) (zeros : List α)
    (edges : List (α × α)) (sorted : List α) : Prop where
  sub : ∀ e ∈ edges, e ∈ E
  no_out : ∀ z ∈ sorted, ∀ e ∈ edges, e.1 ≠ z
  mem_iff : ∀ n, (n ∈ sorted ∨ n ∈ zeros) ↔ (n ∈ N ∧ ∀ e ∈ edges, e.2 ≠ n)
  nodup : (sorted ++ zeros).Nodup
  removed_pred : ∀ e ∈ E, e ∉ edges → e.1 ∈ sorted
  ord : ∀ e ∈ E, e.2 ∈ sorted → [e.1, e.2].Sublist sorted

/-- Invariant of the `tsort` loop used for the cycle argument: no node of the
pending-zeros list lies on a cycle of the original edge list `E`, and every
edge whose predecessor lies on a cycle is still present. -/
structure CycInv (E : List (α × α)) (zeros : List α)
    (edges : List (α × α)) : Prop where
  sub : ∀ e ∈ edges, e ∈ E
  cyc_edges : ∀ e ∈ E, Relation.TransGen (stepRel E) e.1 e.1 → e ∈ edges
  zeros_acyc : ∀ n ∈ zeros, ¬ Relation.TransGen (stepRel E) n n

end InvariantDefs

section TSortLemmas

variable {α : Type} [DecidableEq α]

theorem is_zero_iff (n : α) (edges : List (α × α)) :
    is_zero n edges = true ↔ ∀ e ∈ edges, e.2 ≠ n := by
  induction edges with
  | nil => simp [is_zero]
  | cons e rest ih =>
    by_cases h : e.2 = n
    · simp [is_zero, h]
    · simp [is_zero, h, ih]

theorem get_zeros_mem (n : α) (nodes : List α) (edges : List (α × α)) :
    n ∈ get_zeros nodes edges ↔ n ∈ nodes ∧ ∀ e ∈ edges, e.2 ≠ n := by
  induction edges generalizing nodes with
  | nil => simp [get_zeros]
  | cons e rest ih =>
    simp only [get_zeros, ih, List.mem_filter, List.mem_cons]
    constructor
    · rintro ⟨⟨hn, hne⟩, hrest⟩
      refine ⟨hn, ?_⟩
      intro e' he'
      rcases he' with rfl | he'
      · simp at hne
        exact fun h => hne h.symm
      · exact hrest e' he'
    · rintro ⟨hn, hall⟩
      refine ⟨⟨hn, ?_⟩, fun e' he' => hall e' (Or.inr he')⟩
      simp
      exact fun h => hall e (Or.inl rfl) h.symm

theorem get_zeros_nodup (nodes : List α) (edges : List (α × α))
    (h : nodes.Nodup) : (get_zeros nodes edges).Nodup := by
  induction edges generalizing nodes with
  | nil => exact h
  | cons e rest ih => exact ih _ (h.filter _)

theorem scan_edges_fst (zero : α) (kept rest : List (α × α)) (zeros : List α) :
    (scan_edges zero kept rest zeros).1
      = kept ++ rest.filter (fun e => !(e.1 = zero)) := by
  induction rest generalizing kept zeros with
  | nil => simp [scan_edges]
  | cons e rest ih =>
    by_cases h : e.1 = zero
    · simp [scan_edges, h, ih]
    · simp [scan_edges, h, ih, List.filter_cons]

theorem scan_edges_zeros_mono (zero : α) (kept rest : List (α × α))
    (zeros : List α) (n : α) (hn : n ∈ zeros) :
    n ∈ (scan_edges zero kept rest zeros).2 := by
  induction rest generalizing kept zeros with
  | nil => simpa [scan_edges] using hn
  | cons e rest ih =>
    by_cases h : e.1 = zero
    · simp only [scan_edges, if_pos h]
      split
      · exact ih kept _ (List.mem_append_left _ hn)
      · exact ih kept _ hn
    · simp only [scan_edges, if_neg h]
      exact ih (kept ++ [e]) _ hn

theorem scan_edges_zeros_mem (zero : α) (kept rest : List (α × α))
    (zeros : List α) (n : α) (hn : n ∈ (scan_edges zero kept rest zeros).2) :
    n ∈ zeros ∨ ∃ e ∈ rest, e.1 = zero ∧ e.2 = n := by
  induction rest generalizing kept zeros with
  | nil => simp [scan_edges] at hn; exact Or.inl hn
  | cons e rest ih =>
    by_cases h : e.1 = zero
    · simp only [scan_edges, if_pos h] at hn
      rcases ih kept _ hn with hz | ⟨e', he', hz', hn'⟩
      · by_cases hiz : is_zero e.2 (kept ++ rest) = true
        · rw [if_pos hiz] at hz
          rcases List.mem_append.mp hz with hz | hz
          · exact Or.inl hz
          · simp at hz
            exact Or.inr ⟨e, List.mem_cons_self _ _, h, hz.symm⟩
        · rw [if_neg hiz] at hz
          exact Or.inl hz
      · exact Or.inr ⟨e', List.mem_cons_of_mem _ he', hz', hn'⟩
    · simp only [scan_edges, if_neg h] at hn
      rcases ih (kept ++ [e]) _ hn with hz | ⟨e', he', hz', hn'⟩
      · exact Or.inl hz
      · exact Or.inr ⟨e', List.mem_cons_of_mem _ he', hz', hn'⟩

theorem scan_edges_pushed (zero : α) (kept rest : List (α × α)) (zeros : List α)
    (n : α) (hw : ∃ e ∈ rest, e.1 = zero ∧ e.2 = n)
    (hni : ∀ e ∈ kept ++ rest.filter (fun e => !(e.1 = zero)), e.2 ≠ n) :
    n ∈ (scan_edges zero kept rest zeros).2 := by
  induction rest generalizing kept zeros with
  | nil => simp at hw
  | cons e rest ih =>
    by_cases hz : e.1 = zero
    · simp only [scan_edges, if_pos hz]
      have hfe : (e :: rest).filter (fun e => !(e.1 = zero))
          = rest.filter (fun e => !(e.1 = zero)) := by
        simp [List.filter_cons, hz]
      rw [hfe] at hni
      by_cases hn : e.2 = n
      · by_cases hiz : is_zero e.2 (kept ++ rest) = true
        · rw [if_pos hiz]
          exact scan_edges_zeros_mono _ _ _ _ _ (by simp [hn])
        · have hex : ∃ e' ∈ kept ++ rest, e'.2 = e.2 := by
            by_contra hc
            push_neg at hc
            exact hiz ((is_zero_iff _ _).mpr hc)
          obtain ⟨e', he', h2⟩ := hex
          rcases List.mem_append.mp he' with hk | hr
          · exact absurd (h2.trans hn) (hni e' (List.mem_append_left _ hk))
          · by_cases hz' : e'.1 = zero
            · rw [if_neg hiz]
              exact ih kept zeros ⟨e', hr, hz', h2.trans hn⟩ hni
            · exact absurd (h2.trans hn)
                (hni e' (List.mem_append_right _ (List.mem_filter.mpr ⟨hr, by simp [hz']⟩)))
      · obtain ⟨e₀, he₀, hz₀, hn₀⟩ := hw
        have he₀' : e₀ ∈ rest := by
          rcases List.mem_cons.mp he₀ with rfl | h
          · exact absurd hn₀ hn
          · exact h
        exact ih kept _ ⟨e₀, he₀', hz₀, hn₀⟩ hni
    · simp only [scan_edges, if_neg hz]
      obtain ⟨e₀, he₀, hz₀, hn₀⟩ := hw
      have he₀' : e₀ ∈ rest := by
        rcases List.mem_cons.mp he₀ with rfl | h
        · exact absurd hz₀ hz
        · exact h
      refine ih (kept ++ [e]) zeros ⟨e₀, he₀', hz₀, hn₀⟩ ?_
      intro e' he'
      apply hni e'
      have hfe : (e :: rest).filter (fun e => !(e.1 = zero))
          = e :: rest.filter (fun e => !(e.1 = zero)) := by
        simp [List.filter_cons, hz]
      rw [hfe]
      simp only [List.mem_append, List.mem_cons] at he' ⊢
      tauto

theorem scan_edges_pushed_no_incoming (zero : α) (kept rest : List (α × α))
    (zeros : List α) (n : α)
    (hn : n ∈ (scan_edges zero kept rest zeros).2) (hnz : n ∉ zeros) :
    ∀ e ∈ kept ++ rest.filter (fun e => !(e.1 = zero)), e.2 ≠ n := by
  induction rest generalizing kept zeros with
  | nil =>
    simp [scan_edges] at hn
    exact absurd hn hnz
  | cons e rest ih =>
    by_cases hz : e.1 = zero
    · have hfe : (e :: rest).filter (fun e => !(e.1 = zero))
        = rest.filter (fun e => !(e.1 = zero)) := by
        simp [List.filter_cons, hz]
      rw [hfe]
      simp only [scan_edges, if_pos hz] at hn
      by_cases hiz : is_zero e.2 (kept ++ rest) = true
      · rw [if_pos hiz] at hn
        by_cases hmem : n ∈ zeros ++ [e.2]
        · have hne : n = e.2 := by
            rcases List.mem_append.mp hmem with h | h
            · exact absurd h hnz
            · simpa using h
          subst hne
          intro e' he'
          rcases List.mem_append.mp he' with hk | hf
          · exact (is_zero_iff _ _).mp hiz e' (List.mem_append_left _ hk)
          · exact (is_zero_iff _ _).mp hiz e'
              (List.mem_append_right _ (List.mem_filter.mp hf).1)
        · exact ih kept (zeros ++ [e.2]) hn hmem
      · rw [if_neg hiz] at hn
        exact ih kept zeros hn hnz
    · have hfe : (e :: rest).filter (fun e => !(e.1 = zero))
        = e :: rest.filter (fun e => !(e.1 = zero)) := by
        simp [List.filter_cons, hz]
      rw [hfe]
      simp only [scan_edges, if_neg hz] at hn
      have key := ih (kept ++ [e]) zeros hn hnz
      intro e' he'
      apply key e'
      simp only [List.mem_append, List.mem_cons] at he' ⊢
      tauto

theorem scan_edges_zeros_nodup (zero : α) (kept rest : List (α × α))
    (zeros : List α) (hnd : zeros.Nodup)
    (hno : ∀ n ∈ zeros, ∀ e ∈ kept ++ rest, e.2 ≠ n) :
    (scan_edges zero kept rest zeros).2.Nodup := by
  induction rest generalizing kept zeros with
  | nil => simpa [scan_edges] using hnd
  | cons e rest ih =>
    by_cases hz : e.1 = zero
    · simp only [scan_edges, if_pos hz]
      by_cases hiz : is_zero e.2 (kept ++ rest) = true
      · rw [if_pos hiz]
        apply ih kept (zeros ++ [e.2])
        · have hnm : e.2 ∉ zeros := fun hmem => hno e.2 hmem e (by simp) rfl
          simp [List.nodup_append, hnd, hnm]
        · intro m hm e' he'
          rcases List.mem_append.mp hm with hm | hm
          · exact hno m hm e'
              (by simp only [List.mem_append, List.mem_cons] at he' ⊢; tauto)
          · have hme : m = e.2 := by simpa using hm
            subst hme
            exact (is_zero_iff _ _).mp hiz e' he'
      · rw [if_neg hiz]
        apply ih kept zeros hnd
        intro m hm e' he'
        exact hno m hm e'
          (by simp only [List.mem_append, List.mem_cons] at he' ⊢; tauto)
    · simp only [scan_edges, if_neg hz]
      apply ih (kept ++ [e]) zeros hnd
      intro m hm e' he'
      exact hno m hm e'
        (by simp only [List.mem_append, List.mem_cons] at he' ⊢; tauto)

theorem acyclic_of_rank (E : List (α × α)) (f : α → Nat)
    (hf : ∀ e ∈ E, f e.1 < f e.2) (a : α) :
    ¬ Relation.TransGen (stepRel E) a a := by
  intro h
  have key : ∀ x y, Relation.TransGen (stepRel E) x y → f x < f y := by
    intro x y hxy
    induction hxy with
    | single h1 => exact hf _ h1
    | tail h1 h2 ih => exact Nat.lt_trans ih (hf _ h2)
  exact lt_irrefl _ (key a a h)

theorem transGen_nil (x y : α) :
    ¬ Relation.TransGen (stepRel ([] : List (α × α))) x y := by
  intro h
  induction h with
  | single h1 => simp [stepRel] at h1
  | tail h1 h2 ih => simp [stepRel] at h2

theorem exists_source (E : List (α × α)) (hne : E ≠ [])
    (hacyc : ∀ a, ¬ Relation.TransGen (stepRel E) a a) :
    ∃ a, (∃ e ∈ E, e.1 = a) ∧ ∀ e ∈ E, e.2 ≠ a := by
  classical
  have hmemL : ∀ e ∈ E, e.1 ∈ E.map Prod.fst ++ E.map Prod.snd
      ∧ e.2 ∈ E.map Prod.fst ++ E.map Prod.snd := by
    intro e he
    exact ⟨List.mem_append_left _ (List.mem_map_of_mem _ he),
      List.mem_append_right _ (List.mem_map_of_mem _ he)⟩
  haveI : Finite {x // x ∈ E.map Prod.fst ++ E.map Prod.snd} :=
    ((E.map Prod.fst ++ E.map Prod.snd).finite_toSet).to_subtype
  let r : {x // x ∈ E.map Prod.fst ++ E.map Prod.snd} →
      {x // x ∈ E.map Prod.fst ++ E.map Prod.snd} → Prop :=
    fun x y => Relation.TransGen (stepRel E) x.1 y.1
  haveI : IsTrans _ r := ⟨fun a b c hab hbc => hab.trans hbc⟩
  haveI : IsIrrefl _ r := ⟨fun a h => hacyc a.1 h⟩
  have hwf := Finite.wellFounded_of_trans_of_irrefl r
  obtain ⟨e₀, he₀⟩ := List.exists_mem_of_ne_nil E hne
  obtain ⟨m, _, hmin⟩ := hwf.has_min Set.univ ⟨⟨e₀.1, (hmemL e₀ he₀).1⟩, trivial⟩
  have hnoin : ∀ e ∈ E, e.2 ≠ m.1 := by
    intro e he h2
    refine hmin ⟨e.1, (hmemL e he).1⟩ trivial (Relation.TransGen.single ?_)
    show (e.1, m.1) ∈ E
    rw [← h2, Prod.mk.eta]
    exact he
  rcases List.mem_append.mp m.2 with h | h
  · obtain ⟨e, he, hfst⟩ := List.mem_map.mp h
    exact ⟨m.1, ⟨e, he, hfst⟩, hnoin⟩
  · obtain ⟨e, he, hsnd⟩ := List.mem_map.mp h
    exact absurd hsnd (hnoin e he)

theorem loopInv_step (N : List α) (E : List (α × α))
    (hend : ∀ e ∈ E, e.1 ∈ N ∧ e.2 ∈ N)
    (zero : α) (zrest : List α) (edges : List (α × α)) (sorted : List α)
    (hinv : LoopInv N E (zero :: zrest) edges sorted) :
    LoopInv N E (scan_edges zero [] edges zrest).2
      (scan_edges zero [] edges zrest).1 (sorted ++ [zero]) := by
  obtain ⟨A, B, C, D, RP, O⟩ := hinv
  have hfst := scan_edges_fst zero [] edges zrest
  simp only [List.nil_append] at hfst
  refine ⟨?_, ?_, ?_, ?_, ?_, ?_⟩
  · intro e he
    rw [hfst] at he
    exact A e (List.mem_filter.mp he).1
  · intro z hzm e he
    rw [hfst] at he
    rcases List.mem_append.mp hzm with hs | hz1
    · exact B z hs e (List.mem_filter.mp he).1
    · have hz : z = zero := by simpa using hz1
      subst hz
      have := (List.mem_filter.mp he).2
      simpa using this
  · intro n
    constructor
    · intro h
      rcases h with hs | hz'
      · rcases List.mem_append.mp hs with hs | h1
        · have := (C n).mp (Or.inl hs)
          exact ⟨this.1, fun e he => this.2 e (by rw [hfst] at he; exact (List.mem_filter.mp he).1)⟩
        · have hnz : n = zero := by simpa using h1
          have := (C n).mp (Or.inr (by simp [hnz]))
          exact ⟨this.1, fun e he => this.2 e (by rw [hfst] at he; exact (List.mem_filter.mp he).1)⟩
      · by_cases hzr : n ∈ zrest
        · have := (C n).mp (Or.inr (List.mem_cons_of_mem _ hzr))
          exact ⟨this.1, fun e he => this.2 e (by rw [hfst] at he; exact (List.mem_filter.mp he).1)⟩
        · rcases scan_edges_zeros_mem _ _ _ _ _ hz' with hzr' | ⟨e, he, hz1, hz2⟩
          · exact absurd hzr' hzr
          · refine ⟨?_, ?_⟩
            · rw [← hz2]
              exact (hend e (A e he)).2
            · have hni := scan_edges_pushed_no_incoming zero [] edges zrest n hz' hzr
              intro e' he'
              refine hni e' ?_
              rw [hfst] at he'
              simpa using he'
    · rintro ⟨hN, hni⟩
      by_cases hall : ∀ e ∈ edges, e.2 ≠ n
      · rcases (C n).mpr ⟨hN, hall⟩ with hs | hz
        · exact Or.inl (List.mem_append_left _ hs)
        · rcases List.mem_cons.mp hz with rfl | hzr
          · exact Or.inl (List.mem_append_right _ (by simp))
          · exact Or.inr (scan_edges_zeros_mono _ _ _ _ _ hzr)
      · push_neg at hall
        obtain ⟨e, he, h2⟩ := hall
        have hz1 : e.1 = zero := by
          by_contra hne
          exact hni e (by rw [hfst]; exact List.mem_filter.mpr ⟨he, by simp [hne]⟩) h2
        refine Or.inr (scan_edges_pushed zero [] edges zrest n ⟨e, he, hz1, h2⟩ ?_)
        intro e' he'
        refine hni e' ?_
        rw [hfst]
        simpa using he'
  · rw [List.nodup_append]
    obtain ⟨nds, ndc, disj⟩ := List.nodup_append.mp D
    refine ⟨?_, ?_, ?_⟩
    · rw [List.nodup_append]
      exact ⟨nds, by simp, fun a ha ha1 =>
        disj ha (List.mem_cons.mpr (Or.inl (by simpa using ha1)))⟩
    · refine scan_edges_zeros_nodup zero [] edges zrest (List.Nodup.of_cons ndc) ?_
      intro n hn e he
      exact ((C n).mp (Or.inr (List.mem_cons_of_mem _ hn))).2 e (by simpa using he)
    · intro a ha haz
      have hC : a ∈ N ∧ ∀ e ∈ edges, e.2 ≠ a := by
        rcases List.mem_append.mp ha with hs | h1
        · exact (C a).mp (Or.inl hs)
        · exact (C a).mp (Or.inr (List.mem_cons.mpr (Or.inl (by simpa using h1))))
      rcases scan_edges_zeros_mem _ _ _ _ _ haz with hzr | ⟨e, he, h1, h2⟩
      · rcases List.mem_append.mp ha with hs | h1
        · exact disj hs (List.mem_cons_of_mem _ hzr)
        · have : a = zero := by simpa using h1
          subst this
          exact (List.nodup_cons.mp ndc).1 hzr
      · exact hC.2 e he h2
  · intro e he hnm
    by_cases hmem : e ∈ edges
    · have hz1 : e.1 = zero := by
        by_contra hne
        exact hnm (by rw [hfst]; exact List.mem_filter.mpr ⟨hmem, by simp [hne]⟩)
      exact List.mem_append_right _ (by simp [hz1])
    · exact List.mem_append_left _ (RP e he hmem)
  · intro e he hs2
    rcases List.mem_append.mp hs2 with hs | h1
    · exact (O e he hs).trans (List.sublist_append_left _ _)
    · have h2z : e.2 = zero := by simpa using h1
      have hnoin := ((C zero).mp (Or.inr (List.mem_cons_self _ _))).2
      have hne : e ∉ edges := fun hmem => hnoin e hmem h2z
      have h1s : e.1 ∈ sorted := RP e he hne
      rw [h2z]
      show List.Sublist ([e.1] ++ [zero]) (sorted ++ [zero])
      exact List.Sublist.append (List.singleton_sublist.mpr h1s) (List.Sublist.refl _)

theorem tsort_loop_inv (N : List α) (E : List (α × α))
    (hend : ∀ e ∈ E, e.1 ∈ N ∧ e.2 ∈ N) :
    ∀ (zeros : List α) (edges : List (α × α)) (sorted : List α),
      LoopInv N E zeros edges sorted →
      LoopInv N E [] (tsort_loop zeros edges sorted).2 (tsort_loop zeros edges sorted).1 := by
  intro zeros edges sorted
  induction zeros, edges, sorted using tsort_loop.induct with
  | case1 edges sorted =>
    intro h
    simpa [tsort_loop] using h
  | case2 edges sorted zero zrest ih =>
    intro h
    simp only [tsort_loop]
    exact ih (loopInv_step N E hend zero zrest edges sorted h)

theorem cycInv_step (E : List (α × α)) (zero : α) (zrest : List α)
    (edges : List (α × α)) (hinv : CycInv E (zero :: zrest) edges) :
    CycInv E (scan_edges zero [] edges zrest).2 (scan_edges zero [] edges zrest).1 := by
  obtain ⟨A, G, H⟩ := hinv
  have hfst := scan_edges_fst zero [] edges zrest
  simp only [List.nil_append] at hfst
  refine ⟨?_, ?_, ?_⟩
  · intro e he
    rw [hfst] at he
    exact A e (List.mem_filter.mp he).1
  · intro e he hcyc
    have hmem : e ∈ edges := G e he hcyc
    have hne : e.1 ≠ zero := by
      intro h
      exact H zero (List.mem_cons_self _ _) (h ▸ hcyc)
    rw [hfst]
    exact List.mem_filter.mpr ⟨hmem, by simp [hne]⟩
  · intro n hn hcyc
    by_cases hzr : n ∈ zrest
    · exact H n (List.mem_cons_of_mem _ hzr) hcyc
    · obtain ⟨m, hmn, hpath⟩ : ∃ m, stepRel E m n ∧ Relation.ReflTransGen (stepRel E) n m := by
        rcases (Relation.TransGen.tail'_iff).mp hcyc with ⟨b, hb1, hb2⟩
        exact ⟨b, hb2, hb1⟩
      have hmcyc : Relation.TransGen (stepRel E) m m := Relation.TransGen.head' hmn hpath
      have hmE : (m, n) ∈ edges := G (m, n) hmn hmcyc
      have hmne : m ≠ zero := fun h => H zero (List.mem_cons_self _ _) (h ▸ hmcyc)
      have hni := scan_edges_pushed_no_incoming zero [] edges zrest n hn hzr
      exact hni (m, n) (List.mem_filter.mpr ⟨hmE, by simp [hmne]⟩) rfl

theorem tsort_loop_cyc (E : List (α × α)) :
    ∀ (zeros : List α) (edges : List (α × α)) (sorted : List α),
      CycInv E zeros edges →
      ∀ e ∈ E, Relation.TransGen (stepRel E) e.1 e.1 →
        e ∈ (tsort_loop zeros edges sorted).2 := by
  intro zeros edges sorted
  induction zeros, edges, sorted using tsort_loop.induct with
  | case1 edges sorted =>
    intro h e he hcyc
    simp only [tsort_loop]
    exact h.cyc_edges e he hcyc
  | case2 edges sorted zero zrest ih =>
    intro h
    simp only [tsort_loop]
    exact ih (cycInv_step E zero zrest edges h)

theorem tsort_cycle_aux (nodes : List α) (edges : List (α × α))
    (hcyc : ∃ a, Relation.TransGen (stepRel edges) a a) :
    (tsort nodes edges).1 = false ∧ (tsort nodes edges).2.1 = nodes ∧
    (∀ e ∈ edges, Relation.TransGen (stepRel edges) e.1 e.1 →
      e ∈ (tsort nodes edges).2.2) ∧
    (∃ a, Relation.TransGen (stepRel (tsort nodes edges).2.2) a a) := by
  obtain ⟨a, ha⟩ := hcyc
  have h0 : CycInv edges (get_zeros nodes edges) edges := by
    refine ⟨fun e he => he, fun e he _ => he, ?_⟩
    intro n hn hc
    rcases (Relation.TransGen.tail'_iff).mp hc with ⟨b, hb1, hb2⟩
    exact ((get_zeros_mem n nodes edges).mp hn).2 (b, n) hb2 rfl
  have hcont := tsort_loop_cyc edges _ _ [] h0
  have htrans : ∀ x y, Relation.TransGen (stepRel edges) x y →
      Relation.TransGen (stepRel edges) y x →
      Relation.TransGen (stepRel (tsort_loop (get_zeros nodes edges) edges []).2) x y := by
    intro x y hxy
    induction hxy with
    | single h1 =>
      intro hyx
      exact Relation.TransGen.single
        (hcont (x, _) h1 ((Relation.TransGen.single h1).trans hyx))
    | tail h1 h2 ih =>
      intro hyx
      have hcb := (Relation.TransGen.single h2).trans hyx
      exact (ih hcb).tail (hcont (_, _) h2 (hcb.trans h1))
  have hcycp := htrans a a ha ha
  have hpne : (tsort_loop (get_zeros nodes edges) edges []).2 ≠ [] := by
    intro h
    rw [h] at hcycp
    exact transGen_nil a a hcycp
  have hie : (tsort_loop (get_zeros nodes edges) edges []).2.isEmpty = false := by
    rcases h : (tsort_loop (get_zeros nodes edges) edges []).2 with _ | ⟨e, es⟩
    · exact absurd h hpne
    · rfl
  have ht : tsort nodes edges
      = (false, nodes, (tsort_loop (get_zeros nodes edges) edges []).2) := by
    simp [tsort, hie]
  refine ⟨by rw [ht], by rw [ht], ?_, ⟨a, by rw [ht]; exact hcycp⟩⟩
  intro e he hc
  rw [ht]
  exact hcont e he hc

/-- Claim C1: for every node list and edge list forming an acyclic graph —
distinct nodes, every edge endpoint a listed node, no directed cycle — `tsort`
returns true, the edge list is empty on return, and the node list is replaced
by a permutation of the original nodes in which, for every original edge, the
predecessor appears before the successor. -/
theorem tsort_acyclic_correct (nodes : List α) (edges : List (α × α))
    (hnd : nodes.Nodup)
    (hend : ∀ e ∈ edges, e.1 ∈ nodes ∧ e.2 ∈ nodes)
    (hacyc : ∀ a, ¬ Relation.TransGen (stepRel edges) a a) :
    (tsort nodes edges).1 = true ∧ (tsort nodes edges).2.2 = [] ∧
    (tsort nodes edges).2.1.Perm nodes ∧
    ∀ e ∈ edges, [e.1, e.2].Sublist (tsort nodes edges).2.1 := by
  have h0 : LoopInv nodes edges (get_zeros nodes edges) edges [] := by
    refine ⟨fun e he => he, by simp, ?_, by simpa using get_zeros_nodup nodes edges hnd,
      fun e he hne => absurd he hne, by simp⟩
    intro n
    simp [get_zeros_mem]
  have hf := tsort_loop_inv nodes edges hend _ _ _ h0
  have hEf : (tsort_loop (get_zeros nodes edges) edges []).2 = [] := by
    by_contra hne
    have hacyc' : ∀ a',
        ¬ Relation.TransGen (stepRel (tsort_loop (get_zeros nodes edges) edges []).2) a' a' := by
      intro a' ha'
      exact hacyc a' (Relation.TransGen.mono (fun x y hxy => hf.sub (x, y) hxy) ha')
    obtain ⟨a, ⟨e, he, h1⟩, hnoin⟩ := exists_source _ hne hacyc'
    have haN : a ∈ nodes := by
      rw [← h1]
      exact (hend e (hf.sub e he)).1
    have hmem : a ∈ (tsort_loop (get_zeros nodes edges) edges []).1 := by
      rcases (hf.mem_iff a).mpr ⟨haN, hnoin⟩ with h | h
      · exact h
      · simp at h
    exact hf.no_out a hmem e he h1
  have ht : tsort nodes edges
      = (true, (tsort_loop (get_zeros nodes edges) edges []).1, []) := by
    simp [tsort, hEf]
  refine ⟨by rw [ht], by rw [ht], ?_, ?_⟩
  · rw [ht]
    have hnd1 : (tsort_loop (get_zeros nodes edges) edges []).1.Nodup := by
      have := hf.nodup
      simpa using this
    rw [List.perm_ext_iff_of_nodup hnd1 hnd]
    intro a
    constructor
    · intro h
      exact ((hf.mem_iff a).mp (Or.inl h)).1
    · intro h
      rcases (hf.mem_iff a).mpr ⟨h, by simp [hEf]⟩ with h' | h'
      · exact h'
      · simp at h'
  · intro e he
    rw [ht]
    apply hf.ord e he
    rcases (hf.mem_iff e.2).mpr ⟨(hend e he).2, by simp [hEf]⟩ with h' | h'
    · exact h'
    · simp at h'

/-- Witness for claim C1 at nodes [1, 2, 3] with edges [(1, 2), (2, 3)]: the
hypotheses hold and `tsort` succeeds, returning the order [1, 2, 3]. -/
theorem tsort_acyclic_correct_witness :
    (tsort [1, 2, 3] [((1 : Nat), (2 : Nat)), (2, 3)]).1 = true ∧
    (tsort [1, 2, 3] [((1 : Nat), (2 : Nat)), (2, 3)]).2.1 = [1, 2, 3] := by
  refine ⟨(tsort_acyclic_correct [1, 2, 3] [(1, 2), (2, 3)] (by decide) (by decide)
    (acyclic_of_rank _ (fun n => n) (by decide))).1, ?_⟩
  simp [tsort, tsort_loop, scan_edges, get_zeros, is_zero]

/-- Claim C2, amended: for every node list and edge list containing a directed
cycle, `tsort` returns false, every edge whose predecessor lies on a cycle (in
particular every edge belonging to a cycle) remains in the edge list, the node
list is not reordered, and re-running `tsort` on the leftover nodes and edges
fails again.  (The original claim also covered edges whose endpoint is not a
listed node; the counterexample `tsort_missing_node_cex` shows such an edge
does not by itself make `tsort` fail.) -/
theorem tsort_cycle_behavior (nodes : List α) (edges : List (α × α))
    (hcyc : ∃ a, Relation.TransGen (stepRel edges) a a) :
    (tsort nodes edges).1 = false ∧
    (tsort nodes edges).2.1 = nodes ∧
    (∀ e ∈ edges, Relation.TransGen (stepRel edges) e.1 e.1 →
      e ∈ (tsort nodes edges).2.2) ∧
    (tsort nodes (tsort nodes edges).2.2).1 = false := by
  obtain ⟨h1, h2, h3, h4⟩ := tsort_cycle_aux nodes edges hcyc
  exact ⟨h1, h2, h3, (tsort_cycle_aux nodes _ h4).1⟩

/-- Counterexample to claim C2 as stated: the edge (0, 1) has successor 1,
which is not a listed node, yet `tsort` returns true, consumes the edge and
appends the missing node to the output order, rather than failing with the
edge left in place. -/
theorem tsort_missing_node_cex :
    ((0, 1) ∈ [((0 : Nat), (1 : Nat))] ∧ (1 : Nat) ∉ [(0 : Nat)]) ∧
    (tsort [(0 : Nat)] [((0 : Nat), (1 : Nat))]).1 = true ∧
    (tsort [(0 : Nat)] [((0 : Nat), (1 : Nat))]).2.2 = [] ∧
    (tsort [(0 : Nat)] [((0 : Nat), (1 : Nat))]).2.1 = [0, 1] := by
  refine ⟨by decide, ?_, ?_, ?_⟩ <;>
    simp [tsort, tsort_loop, scan_edges, get_zeros, is_zero]

/-- Witness for claim C2 (amended) at nodes [1, 2] with the two-cycle
[(1, 2), (2, 1)]. -/
theorem tsort_cycle_behavior_witness :
    (tsort [1, 2] [((1 : Nat), (2 : Nat)), (2, 1)]).1 = false ∧
    (tsort [1, 2] [((1 : Nat), (2 : Nat)), (2, 1)]).2.1 = [1, 2] ∧
    (tsort [1, 2] (tsort [1, 2] [((1 : Nat), (2 : Nat)), (2, 1)]).2.2).1 = false := by
  have h := tsort_cycle_behavior [1, 2] [((1 : Nat), (2 : Nat)), (2, 1)]
    ⟨1, Relation.TransGen.tail
      (Relation.TransGen.single
        (show stepRel [((1 : Nat), (2 : Nat)), (2, 1)] 1 2 by decide))
      (show stepRel [((1 : Nat), (2 : Nat)), (2, 1)] 2 1 by decide)⟩
  exact ⟨h.1, h.2.1, h.2.2.2⟩

/-- Claim C10: for every node list and an empty edge list, `tsort` succeeds
and returns the node sequence unchanged — the insertion-order tie-break keeps
simultaneously-ready nodes in their original relative order. -/
theorem tsort_empty_edges (nodes : List α) :
    tsort nodes ([] : List (α × α)) = (true, nodes, []) := by
  have key : ∀ (zeros sorted : List α),
      tsort_loop zeros ([] : List (α × α)) sorted = (sorted ++ zeros, []) := by
    intro zeros
    induction zeros with
    | nil => intro s; simp [tsort_loop]
    | cons z zs ih =>
      intro s
      simp only [tsort_loop]
      rw [show scan_edges z [] ([] : List (α × α)) zs = ([], zs) from rfl]
      rw [ih]
      simp
  simp [tsort, get_zeros, key]

end TSortLemmas

section ProcessLemmas

theorem erase_pair_append (l : List Int) (a b : Int) (hnd : (l ++ [a, b]).Nodup) :
    ((l ++ [a, b]).erase a).erase b = l := by
  obtain ⟨hl, hab, hdisj⟩ := List.nodup_append.mp hnd
  have ha : a ∉ l := fun h => hdisj h (by simp)
  have hb : b ∉ l := fun h => hdisj h (by simp)
  rw [List.erase_append_right _ ha]
  rw [show ([a, b] : List Int).erase a = [b] from by simp]
  rw [List.erase_append_right _ hb]
  simp

theorem close_pipe_last (X : List Int) (R : Prop) [Decidable R] (ep : Int × Int)
    (hnd : (X ++ (if R then [ep.1, ep.2] else [])).Nodup) :
    close_pipe_if R ep (X ++ (if R then [ep.1, ep.2] else [])) = X := by
  by_cases hr : R
  · rw [if_pos hr] at hnd ⊢
    simp only [close_pipe_if, if_pos hr]
    exact erase_pair_append X ep.1 ep.2 hnd
  · rw [if_neg hr]
    simp [close_pipe_if, hr]

/-- Claim C3: whenever `create_child` fails — a requested pipe cannot be
created, or `fork` returns a negative pid — it returns false, every pipe
descriptor opened during the call is closed again before returning, and the
three stream-redirection fields still hold their original requested modes.
The distinctness hypothesis records that the kernel hands out distinct open
descriptors for distinct `pipe()` calls. -/
theorem create_child_fail_atomic (c : ChildDesc) (p1 p2 p3 : Option (Int × Int))
    (forkRes : Int)
    (hdist : (pipe_fds p1 ++ pipe_fds p2 ++ pipe_fds p3).Nodup)
    (hfail : (c.stdin_fd = REDIRECT_PIPE ∧ p1 = none)
      ∨ (c.stdout_fd = REDIRECT_PIPE ∧ p2 = none)
      ∨ (c.stderr_fd = REDIRECT_PIPE ∧ p3 = none) ∨ forkRes < 0) :
    ∃ c1, create_child c p1 p2 p3 forkRes = CCOutcome.ret false c1 [] ∧
      c1.stdin_fd = c.stdin_fd ∧ c1.stdout_fd = c.stdout_fd ∧
      c1.stderr_fd = c.stderr_fd := by
  by_cases h1 : c.stdin_fd = REDIRECT_PIPE ∧ p1 = none
  · exact ⟨c, by simp only [create_child, if_pos h1], rfl, rfl, rfl⟩
  · have hsubA : List.Sublist
        (if c.stdin_fd = REDIRECT_PIPE then [(p1.getD (0, 0)).1, (p1.getD (0, 0)).2] else [])
        (pipe_fds p1) := by
      by_cases hin : c.stdin_fd = REDIRECT_PIPE
      · rcases hp : p1 with _ | pr
        · exact absurd ⟨hin, hp⟩ h1
        · simp [hin, pipe_fds]
      · simp [hin]
    by_cases h2 : c.stdout_fd = REDIRECT_PIPE ∧ p2 = none
    · refine ⟨c, ?_, rfl, rfl, rfl⟩
      simp only [create_child, if_neg h1, if_pos h2]
      have hkey := close_pipe_last [] (c.stdin_fd = REDIRECT_PIPE) (p1.getD (0, 0))
        (by simpa using hsubA.nodup ((hdist.sublist (List.sublist_append_left _ _)).sublist
          (List.sublist_append_left _ _)))
      simpa using hkey
    · have hsubB : List.Sublist
          (if c.stdout_fd = REDIRECT_PIPE then [(p2.getD (0, 0)).1, (p2.getD (0, 0)).2] else [])
          (pipe_fds p2) := by
        by_cases hout : c.stdout_fd = REDIRECT_PIPE
        · rcases hp : p2 with _ | pr
          · exact absurd ⟨hout, hp⟩ h2
          · simp [hout, pipe_fds]
        · simp [hout]
      have hndAB : ((if c.stdin_fd = REDIRECT_PIPE
            then [(p1.getD (0, 0)).1, (p1.getD (0, 0)).2] else [])
          ++ (if c.stdout_fd = REDIRECT_PIPE
            then [(p2.getD (0, 0)).1, (p2.getD (0, 0)).2] else [])).Nodup :=
        ((hsubA.append hsubB).trans (List.sublist_append_left _ _)).nodup hdist
      by_cases h3 : c.stderr_fd = REDIRECT_PIPE ∧ p3 = none
      · refine ⟨c, ?_, rfl, rfl, rfl⟩
        simp only [create_child, if_neg h1, if_neg h2, if_pos h3]
        rw [close_pipe_last _ (c.stdout_fd = REDIRECT_PIPE) (p2.getD (0, 0)) hndAB]
        have hkey := close_pipe_last [] (c.stdin_fd = REDIRECT_PIPE) (p1.getD (0, 0))
          (by simpa using hndAB.sublist (List.sublist_append_left _ _))
        simpa using hkey
      · have hsubC : List.Sublist
            (if c.stderr_fd = REDIRECT_PIPE then [(p3.getD (0, 0)).1, (p3.getD (0, 0)).2] else [])
            (pipe_fds p3) := by
          by_cases herr : c.stderr_fd = REDIRECT_PIPE
          · rcases hp : p3 with _ | pr
            · exact absurd ⟨herr, hp⟩ h3
            · simp [herr, pipe_fds]
          · simp [herr]
        have hndABC : (((if c.stdin_fd = REDIRECT_PIPE
              then [(p1.getD (0, 0)).1, (p1.getD (0, 0)).2] else [])
            ++ (if c.stdout_fd = REDIRECT_PIPE
              then [(p2.getD (0, 0)).1, (p2.getD (0, 0)).2] else []))
            ++ (if c.stderr_fd = REDIRECT_PIPE
              then [(p3.getD (0, 0)).1, (p3.getD (0, 0)).2] else [])).Nodup := by
          refine List.Nodup.sublist ?_ hdist
          have := (hsubA.append hsubB).append hsubC
          simpa [List.append_assoc] using this
        have hf4 : forkRes < 0 := by
          rcases hfail with h | h | h | h
          · exact absurd h h1
          · exact absurd h h2
          · exact absurd h h3
          · exact h
        refine ⟨⟨c.stdin_fd, c.stdout_fd, c.stderr_fd, forkRes⟩, ?_, rfl, rfl, rfl⟩
        simp only [create_child, if_neg h1, if_neg h2, if_neg h3]
        rw [if_neg (by omega : ¬forkRes = 0), if_pos hf4]
        rw [close_pipe_last _ (c.stderr_fd = REDIRECT_PIPE) (p3.getD (0, 0)) hndABC]
        rw [close_pipe_last _ (c.stdout_fd = REDIRECT_PIPE) (p2.getD (0, 0)) hndAB]
        have hkey := close_pipe_last [] (c.stdin_fd = REDIRECT_PIPE) (p1.getD (0, 0))
          (by simpa using hndAB.sublist (List.sublist_append_left _ _))
        simpa using hkey

/-- Witness for claim C3: all three streams request pipes, the pipes succeed
with descriptors 3..8, and `fork` fails with -1; the call returns false with
no descriptor left open and the redirection fields unchanged. -/
theorem create_child_fail_atomic_witness :
    ∃ c1, create_child ⟨REDIRECT_PIPE, REDIRECT_PIPE, REDIRECT_PIPE, 0⟩
        (some (3, 4)) (some (5, 6)) (some (7, 8)) (-1)
      = CCOutcome.ret false c1 [] ∧
      c1.stdin_fd = REDIRECT_PIPE ∧ c1.stdout_fd = REDIRECT_PIPE ∧
      c1.stderr_fd = REDIRECT_PIPE := by
  have h := create_child_fail_atomic ⟨REDIRECT_PIPE, REDIRECT_PIPE, REDIRECT_PIPE, 0⟩
    (some (3, 4)) (some (5, 6)) (some (7, 8)) (-1) (by decide) (by decide)
  exact h

/-- Claim C4, evaluated at a failing input: with all three streams marked
pipe, the child branch issues `dup2(STDIN_FILENO, fd)` for all three streams —
standard input is the source of every duplication — whereas the intended
redirection (`child_redirects_spec`, modelled from the spec) duplicates each
stream's own pipe end onto that stream.  The two disagree, exhibiting the
copy-paste defect. -/
theorem child_redirects_bug :
    child_redirects ⟨REDIRECT_PIPE, REDIRECT_PIPE, REDIRECT_PIPE, 0⟩ (3, 4) (5, 6) (7, 8) 9
      = [(STDIN_FILENO, 3), (STDIN_FILENO, 6), (STDIN_FILENO, 8)] ∧
    child_redirects_spec ⟨REDIRECT_PIPE, REDIRECT_PIPE, REDIRECT_PIPE, 0⟩ (3, 4) (5, 6) (7, 8) 9
      = [(3, STDIN_FILENO), (6, STDOUT_FILENO), (8, STDERR_FILENO)] ∧
    child_redirects ⟨REDIRECT_PIPE, REDIRECT_PIPE, REDIRECT_PIPE, 0⟩ (3, 4) (5, 6) (7, 8) 9
      ≠ child_redirects_spec ⟨REDIRECT_PIPE, REDIRECT_PIPE, REDIRECT_PIPE, 0⟩
          (3, 4) (5, 6) (7, 8) 9 := by
  refine ⟨?_, ?_, ?_⟩ <;> decide

/-- Claim C5: `ensure_death` returns after the sole non-blocking reap when the
process already exited or is not a child of the caller (nonzero first reap);
otherwise it sends SIGTERM and waits up to 500 ms (0 s, 500000 µs), stopping
there when the child died in time, and otherwise sends SIGKILL, then SIGCONT,
then blocks without timeout until the child is reaped. -/
theorem ensure_death_behavior (firstReap : Int) (graceReaped : Bool) :
    (firstReap ≠ 0 → ensure_death firstReap graceReaped = [PAct.reap_nohang]) ∧
    (firstReap = 0 → graceReaped = true →
      ensure_death firstReap graceReaped
        = [PAct.reap_nohang, PAct.sig_term, PAct.wait_timeout 0 500000]) ∧
    (firstReap = 0 → graceReaped = false →
      ensure_death firstReap graceReaped
        = [PAct.reap_nohang, PAct.sig_term, PAct.wait_timeout 0 500000,
            PAct.sig_kill, PAct.sig_cont, PAct.wait_block]) := by
  refine ⟨?_, ?_, ?_⟩
  · intro h
    by_cases h1 : firstReap = -1 <;> simp [ensure_death, h1, h]
  · rintro rfl rfl
    simp [ensure_death]
  · rintro rfl rfl
    simp [ensure_death]

/-- Witness for claim C5: a still-running child that survives the grace
period receives the full escalation; a nonzero first reap only gets the
initial non-blocking reap. -/
theorem ensure_death_behavior_witness :
    ensure_death 0 false
      = [PAct.reap_nohang, PAct.sig_term, PAct.wait_timeout 0 500000,
          PAct.sig_kill, PAct.sig_cont, PAct.wait_block] ∧
    ensure_death 7 true = [PAct.reap_nohang] :=
  ⟨(ensure_death_behavior 0 false).2.2 rfl rfl,
   (ensure_death_behavior 7 true).1 (by decide)⟩

/-- Claim C8: `wait_for_death` restores both the previous SIGALRM disposition
and the previous ITIMER_REAL timer before returning — the final state equals
the entry state for every wait outcome — and returns true exactly when the
blocking wait reaped the given pid. -/
theorem wait_for_death_behavior {H : Type} (ignoreHandler : H) (pid sec usec : Int)
    (s : AlarmState H) (waitRes : Int) :
    (wait_for_death ignoreHandler pid sec usec s waitRes).2 = s ∧
    ((wait_for_death ignoreHandler pid sec usec s waitRes).1 = true ↔ waitRes = pid) := by
  constructor
  · rfl
  · simp [wait_for_death]

end ProcessLemmas

section SignalLemmas

/-- Claim C6: whenever `release_vt` runs it issues exactly one
`ioctl(vfd, VT_RELDISP, _)` call — argument 0 (switch not permitted) when
`o_lock_all` is set, argument 1 (switch permitted) when it is clear — and
changes no other program state. -/
theorem release_vt_behavior (s : VTState) :
    (release_vt s).vfd = s.vfd ∧ (release_vt s).o_lock_all = s.o_lock_all ∧
    (release_vt s).ioctl_log
      = s.ioctl_log ++ [(s.vfd, VT_RELDISP, if s.o_lock_all then 0 else 1)] := by
  cases h : s.o_lock_all <;> simp [release_vt, h]

/-- Counterexample to claim C7 as stated: when the non-blocking reap reports
an error (-1, e.g. no child exists at all, hence certainly not the supervised
child), `signal_die` nevertheless restores the terminal and exits, because the
source only tests the C truthiness of the `waitpid(-1, NULL, WNOHANG)`
return. -/
theorem signal_die_error_cex : signal_die (-1) = ⟨true, true⟩ := by decide

/-- Claim C7, amended: `signal_die` performs one non-blocking reap of any
child (`waitpid(-1, ..., WNOHANG)`), restores the terminal and exits whenever
that reap returns nonzero — whichever child was reaped, or an error return —
and returns without doing anything exactly when the reap returns 0. -/
theorem signal_die_behavior (reapRes : Int) :
    (signal_die reapRes = ⟨true, true⟩ ↔ reapRes ≠ 0) ∧
    (signal_die reapRes = ⟨false, false⟩ ↔ reapRes = 0) := by
  by_cases h : reapRes = 0 <;> simp [signal_die, h]

/-- Counterexample to claim C9 as stated: starting from a mask blocking
nothing, `mask_signals` leaves all four terminal/job-control signals blocked
in the process mask — the source adds them to the mask in addition to
installing the no-op handler, not instead of blocking them. -/
theorem mask_signals_blocks_tty_cex :
    (mask_signals ⟨fun _ => false, fun _ => VHandler.h_dfl⟩).mask VSig.tstp = true ∧
    (mask_signals ⟨fun _ => false, fun _ => VHandler.h_dfl⟩).mask VSig.ttin = true ∧
    (mask_signals ⟨fun _ => false, fun _ => VHandler.h_dfl⟩).mask VSig.ttou = true ∧
    (mask_signals ⟨fun _ => false, fun _ => VHandler.h_dfl⟩).mask VSig.hup = true :=
  ⟨rfl, rfl, rfl, rfl⟩

/-- Claim C9, amended: after `mask_signals` returns, starting from any prior
mask, SIGUSR1, SIGUSR2 and SIGCHLD are not blocked in the process mask, and
the terminal/job-control signals SIGTSTP, SIGTTIN, SIGTTOU and SIGHUP are both
added to the blocked mask and handled by the installed explicit no-op handler
`signal_ignorer`. -/
theorem mask_signals_behavior (c : SigCtx) :
    ((mask_signals c).mask VSig.usr1 = false ∧ (mask_signals c).mask VSig.usr2 = false ∧
      (mask_signals c).mask VSig.chld = false) ∧
    ((mask_signals c).mask VSig.tstp = true ∧ (mask_signals c).mask VSig.ttin = true ∧
      (mask_signals c).mask VSig.ttou = true ∧ (mask_signals c).mask VSig.hup = true) ∧
    ((mask_signals c).handler VSig.tstp = VHandler.signal_ignorer ∧
      (mask_signals c).handler VSig.ttin = VHandler.signal_ignorer ∧
      (mask_signals c).handler VSig.ttou = VHandler.signal_ignorer ∧
      (mask_signals c).handler VSig.hup = VHandler.signal_ignorer) :=
  ⟨⟨rfl, rfl, rfl⟩, ⟨rfl, rfl, rfl, rfl⟩, ⟨rfl, rfl, rfl, rfl⟩⟩

end SignalLemmas
